import Mathlib

/-!
# Job manager of kdenlive (`src/jobs/jobmanager.cpp`)

A shallow embedding of `JobManager`: the registry (`m_jobs`, `m_jobsByClip`), the
queries over it, `discardJobs`, the two terminal handlers `slotManageFinishedJob` and
`slotManageCanceledJob`, the progress handler wired in `createJob`, and the
parent-waiting loop of `createJob`.

Conventions of the embedding:
* a `std::map` / `std::unordered_map` is an association list read with `List.lookup`;
  `at(k)` on a missing key (an exception) and a failed `Q_ASSERT` are `none`;
* a `shared_ptr<Job_t>` stored in `m_jobs` is the record itself, and a write through
  the pointer is `JobManager.setJob`;
* calls on collaborators (`onItemUpdated`, `commitResult`, `pushUndo`, the mutex
  release, the `jobCount` signal, `cancel`, `QtConcurrent::mapped`) are recorded, in
  program order, in a list of `Effect`s returned next to the new state.
-/

namespace JobManager

abbrev QString := String

/-- Modelled from the spec: `AbstractClipJob::JOBTYPE` is declared in a header that is
not part of the sources; the spec describes it as an "enumerated job kind (or a sentinel
any type)". `NOJOBTYPE` is the sentinel, `kind k` the k-th proper job kind. -/
inductive JOBTYPE where
  | NOJOBTYPE
  | kind (k : Nat)
  deriving DecidableEq, Repr

/-- Modelled from the spec: the values of `JobManagerStatus` used by `getJobStatus`
("one of Pending, Running, Finished, Canceled"). -/
inductive JobManagerStatus where
  | Pending
  | Running
  | Finished
  | Canceled
  deriving DecidableEq, Repr

/-- A subtask (`AbstractClipJob`), an external collaborator seen through the values its
methods return: `commitResult` is what `commitResult(undo, redo)` answers when called. -/
structure AbstractClipJob where
  commitResult : Bool
  getErrorMessage : QString
  getDescription : QString
  deriving DecidableEq, Repr

/-- The asynchronous handle `QFutureWatcher<bool> m_future`: its four state flags and the
results of `future()` available so far, in index order. -/
structure Future where
  isStarted : Bool
  isRunning : Bool
  isFinished : Bool
  isCanceled : Bool
  results : List Bool
  deriving DecidableEq, Repr

/-- The call `m_future.cancel()`: the handle reports canceled from then on. -/
def Future.cancel (f : Future) : Future :=
  { f with isCanceled := true }

/-- The call `future().resultCount()`. -/
def Future.resultCount (f : Future) : Nat :=
  f.results.length

/-- The call `future().isResultReadyAt(i)`. -/
def Future.isResultReadyAt (f : Future) (i : Nat) : Bool :=
  decide (i < f.results.length)

/-- The record `Job_t`; `m_completionMutex` is `true` while the mutex is locked. -/
structure Job_t where
  m_job : List AbstractClipJob
  m_progress : List Int
  m_indices : List (QString × Nat)
  m_future : Future
  m_completionMutex : Bool
  m_type : JOBTYPE
  m_undoString : QString
  m_id : Int
  m_processed : Bool
  m_failed : Bool
  deriving DecidableEq, Repr

/-- Calls made on collaborators, in program order. -/
inductive Effect where
  | onItemUpdated (binId : QString)
  | commitResult (jobId : Int) (i : Nat)
  | pushUndo (label : QString)
  | unlock (jobId : Int)
  | jobCount (count : Nat)
  | cancel (jobId : Int)
  | mapped (jobId : Int)
  deriving DecidableEq, Repr

end JobManager

/-- The registry of `JobManager`: `m_jobs` and `m_jobsByClip`. -/
structure JobManager where
  m_jobs : List (Int × JobManager.Job_t)
  m_jobsByClip : List (JobManager.QString × List Int)
  deriving DecidableEq, Repr

namespace JobManager

/-- A write through the pointer `m_jobs[id]`: the record stored under `id` becomes `job`. -/
def setJob (s : JobManager) (id : Int) (job : Job_t) : JobManager :=
  { s with m_jobs := s.m_jobs.map (fun e => if e.1 == id then (e.1, job) else e) }

/-- The test `type == NOJOBTYPE || m_jobs.at(jobId)->m_type == type`. -/
def typeMatches (type : JOBTYPE) (job : Job_t) : Bool :=
  type == JOBTYPE.NOJOBTYPE || job.m_type == type

/-- The loop of `getPendingJobsIds` over `m_jobsByClip.at(id)`. -/
def getPendingJobsIds.loop (s : JobManager) (type : JOBTYPE) :
    List Int → List Int → Option (List Int)
  | [], result => some result
  | jobId :: rest, result =>
    match s.m_jobs.lookup jobId with
    | none => none
    | some job =>
      if !job.m_future.isFinished && !job.m_future.isCanceled then
        if type == JOBTYPE.NOJOBTYPE || job.m_type == type then
          getPendingJobsIds.loop s type rest (result ++ [jobId])
        else getPendingJobsIds.loop s type rest result
      else getPendingJobsIds.loop s type rest result

def getPendingJobsIds (s : JobManager) (id : QString) (type : JOBTYPE) : Option (List Int) :=
  match s.m_jobsByClip.lookup id with
  | none => none
  | some ids => getPendingJobsIds.loop s type ids []

/-- The loop of `getFinishedJobsIds` over `m_jobsByClip.at(id)`. -/
def getFinishedJobsIds.loop (s : JobManager) (type : JOBTYPE) :
    List Int → List Int → Option (List Int)
  | [], result => some result
  | jobId :: rest, result =>
    match s.m_jobs.lookup jobId with
    | none => none
    | some job =>
      if job.m_future.isFinished || job.m_future.isCanceled then
        if type == JOBTYPE.NOJOBTYPE || job.m_type == type then
          getFinishedJobsIds.loop s type rest (result ++ [jobId])
        else getFinishedJobsIds.loop s type rest result
      else getFinishedJobsIds.loop s type rest result

def getFinishedJobsIds (s : JobManager) (id : QString) (type : JOBTYPE) : Option (List Int) :=
  match s.m_jobsByClip.lookup id with
  | none => none
  | some ids => getFinishedJobsIds.loop s type ids []

/-- The loop of `discardJobs` over `m_jobsByClip.at(binId)`. -/
def discardJobs.loop (type : JOBTYPE) :
    List Int → JobManager → List Effect → Option (JobManager × List Effect)
  | [], s, eff => some (s, eff)
  | jobId :: rest, s, eff =>
    match s.m_jobs.lookup jobId with
    | none => none
    | some job =>
      if type == JOBTYPE.NOJOBTYPE || job.m_type == type then
        discardJobs.loop type rest
          (s.setJob jobId { job with m_future := job.m_future.cancel })
          (eff ++ [Effect.cancel jobId])
      else discardJobs.loop type rest s eff

def discardJobs (s : JobManager) (binId : QString) (type : JOBTYPE) :
    Option (JobManager × List Effect) :=
  match s.m_jobsByClip.lookup binId with
  | none => some (s, [])
  | some ids => discardJobs.loop type ids s []

/-- The loop of `hasPendingJob`; the second component is the value written to `*foundId`. -/
def hasPendingJob.loop (s : JobManager) (type : JOBTYPE) : List Int → Option (Bool × Int)
  | [] => some (false, -1)
  | jobId :: rest =>
    match s.m_jobs.lookup jobId with
    | none => none
    | some job =>
      if (type == JOBTYPE.NOJOBTYPE || job.m_type == type) && !job.m_future.isFinished &&
          !job.m_future.isCanceled then
        some (true, jobId)
      else hasPendingJob.loop s type rest

def hasPendingJob (s : JobManager) (clipId : QString) (type : JOBTYPE) : Option (Bool × Int) :=
  match s.m_jobsByClip.lookup clipId with
  | none => none
  | some ids => hasPendingJob.loop s type ids

/-- The number counted by `updateJobCount` for one job. -/
def readyResults (job : Job_t) : Nat :=
  if !job.m_future.isFinished && !job.m_future.isCanceled then
    ((List.range job.m_future.resultCount).filter job.m_future.isResultReadyAt).length
  else 0

/-- The slot `updateJobCount`: the signal `jobCount(count)` it emits. -/
def updateJobCount (s : JobManager) : Effect :=
  Effect.jobCount ((s.m_jobs.map (fun e => readyResults e.2)).sum)

/-- The loop `for (const auto &it : m_indices) onItemUpdated(it.first)`. -/
def notifyOwners (job : Job_t) : List Effect :=
  job.m_indices.map (fun it => Effect.onItemUpdated it.1)

def slotManageCanceledJob (s : JobManager) (id : Int) : Option (JobManager × List Effect) :=
  match s.m_jobs.lookup id with
  | none => none
  | some job =>
    if job.m_processed then some (s, [])
    else
      let s1 := s.setJob id { job with m_processed := true, m_completionMutex := false }
      some (s1, [Effect.unlock id] ++ notifyOwners job ++ [updateJobCount s1])

/-- The loop `for (bool res : m_future.future()) ok = ok && res`, started with `ok`. -/
def resultsOk (ok : Bool) (results : List Bool) : Bool :=
  results.foldl (fun ok res => ok && res) ok

/-- The loop `for (const auto &j : m_job) ok = ok && j->commitResult(undo, redo)`:
`commitResult` of the subtask at index `i` is called only while `ok` still holds. -/
def commitLoop (id : Int) : List AbstractClipJob → Nat → Bool → List Effect → Bool × List Effect
  | [], _, ok, eff => (ok, eff)
  | j :: rest, i, ok, eff =>
    if ok then commitLoop id rest (i + 1) j.commitResult (eff ++ [Effect.commitResult id i])
    else commitLoop id rest (i + 1) false eff

def slotManageFinishedJob (s : JobManager) (id : Int) : Option (JobManager × List Effect) :=
  match s.m_jobs.lookup id with
  | none => none
  | some job =>
    if job.m_processed then some (s, [])
    else
      let job1 := { job with m_processed := true }
      let ok := resultsOk true job.m_future.results
      if !ok then some (s.setJob id job1, notifyOwners job)
      else
        let r := commitLoop id job.m_job 0 ok []
        let job2 := if !r.1 then { job1 with m_failed := true } else job1
        let push :=
          if r.1 && !job.m_undoString.isEmpty then [Effect.pushUndo job.m_undoString] else []
        let s3 := s.setJob id { job2 with m_completionMutex := false }
        some (s3, notifyOwners job ++ r.2 ++ push ++ [Effect.unlock id, updateJobCount s3])

def getJobType (s : JobManager) (jobId : Int) : Option JOBTYPE :=
  match s.m_jobs.lookup jobId with
  | none => none
  | some job => some job.m_type

def getJobStatus (s : JobManager) (jobId : Int) : Option JobManagerStatus :=
  match s.m_jobs.lookup jobId with
  | none => none
  | some job =>
    if job.m_future.isFinished then some JobManagerStatus.Finished
    else if job.m_future.isCanceled then some JobManagerStatus.Canceled
    else if job.m_future.isRunning then some JobManagerStatus.Running
    else some JobManagerStatus.Pending

/-- The progress handler connected in `createJob` for the pair `(binId, i)` of
`m_indices`, run on the reported value `p`; `none` when `i` is not an index of
`m_progress`. -/
def jobProgress (job : Job_t) (i : Nat) (binId : QString) (p : Int) :
    Option (Job_t × List Effect) :=
  if h : i < job.m_progress.length then
    some ({ job with m_progress := job.m_progress.set i (max (job.m_progress.get ⟨i, h⟩) p) },
      [Effect.onItemUpdated binId])
  else none

/-- The two terminal signals of the handle. -/
inductive Terminal where
  | finished
  | canceled
  deriving DecidableEq, Repr

/-- The terminal handler connected to a signal (lines 214 and 215). -/
def runTerminal (s : JobManager) (id : Int) : Terminal → Option (JobManager × List Effect)
  | Terminal.finished => slotManageFinishedJob s id
  | Terminal.canceled => slotManageCanceledJob s id

/-- A sequence of terminal-handler calls for the job `id`, one after the other (each
handler holds the write lock for its whole body). -/
def runTerminals (s : JobManager) (id : Int) :
    List Terminal → Option (JobManager × List Effect)
  | [] => some (s, [])
  | t :: ts =>
    match runTerminal s id t with
    | none => none
    | some (s1, e1) =>
      match runTerminals s1 id ts with
      | none => none
      | some (s2, e2) => some (s2, e1 ++ e2)

/-- A sequence of progress reports delivered to the handler of the pair `(binId, i)`. -/
def runProgress (job : Job_t) (i : Nat) (binId : QString) :
    List Int → Option (Job_t × List Effect)
  | [] => some (job, [])
  | p :: ps =>
    match jobProgress job i binId p with
    | none => none
    | some (job1, e1) =>
      match runProgress job1 i binId ps with
      | none => none
      | some (job2, e2) => some (job2, e1 ++ e2)

/-- One pass of `for (int p : parents)` in `createJob`: `some true` when every
`try_lock` succeeded (the mutex is released again at once, so nothing changes),
`some false` at the first parent whose mutex is held, `none` when a parent is not
registered. -/
def sweepParents (s : JobManager) : List Int → Option Bool
  | [] => some true
  | p :: rest =>
    match s.m_jobs.lookup p with
    | none => none
    | some parent => if parent.m_completionMutex then some false else sweepParents s rest

/-- Outcome of the waiting loop of `createJob`. -/
inductive Admission where
  | admitted (sweep : Nat)
  | waiting
  | failed
  deriving DecidableEq, Repr

/-- The loop `while (!ok)` of `createJob`: sweep number `k` reads the registry `env k`
(other threads run during `QThread::sleep(1)`); `fuel` bounds the number of sweeps. -/
def waitForParents (env : Nat → JobManager) (parents : List Int) : Nat → Nat → Admission
  | 0, _ => Admission.waiting
  | fuel + 1, k =>
    match sweepParents (env k) parents with
    | none => Admission.failed
    | some true => Admission.admitted k
    | some false => waitForParents env parents fuel (k + 1)

/-- The signal `finished()` of the job: the slots connected at lines 214 and 217. -/
def emitFinished (s : JobManager) (id : Int) : Option (JobManager × List Effect) :=
  match slotManageFinishedJob s id with
  | none => none
  | some (s1, e1) => some (s1, e1 ++ [updateJobCount s1])

/-- The signal `canceled()` of the job: the slots connected at lines 215 and 218. -/
def emitCanceled (s : JobManager) (id : Int) : Option (JobManager × List Effect) :=
  match slotManageCanceledJob s id with
  | none => none
  | some (s1, e1) => some (s1, e1 ++ [updateJobCount s1])

/-- The function `createJob` for the registered job `id`: the waiting loop, then the
dispatch `QtConcurrent::mapped` (recorded as `Effect.mapped`) and `setFuture`, then the
manual check of the handle. The `connect` calls change no state: they install
`jobProgress` for each pair of `m_indices`, and `emitFinished`, `emitCanceled` for the
signals of the handle. `fut` is the state of the new handle when the manual check reads
it. The result carries the number of the admitting sweep; `none` stands for a job that
has not been dispatched. -/
def createJob (env : Nat → JobManager) (fuel : Nat) (id : Int) (parents : List Int)
    (fut : Future) : Option (Nat × JobManager × List Effect) :=
  match waitForParents env parents fuel 0 with
  | Admission.waiting => none
  | Admission.failed => none
  | Admission.admitted k =>
    match (env k).m_jobs.lookup id with
    | none => none
    | some job =>
      let s1 := (env k).setJob id { job with m_future := fut }
      match (if fut.isFinished then emitFinished s1 id else some (s1, [])) with
      | none => none
      | some (s2, e2) =>
        match (if fut.isCanceled then emitCanceled s2 id else some (s2, [])) with
        | none => none
        | some (s3, e3) => some (k, s3, [Effect.mapped id] ++ e2 ++ e3)

/-- What the threads of the program can do to the registry between two sweeps of a
waiting `createJob`. The terminal handlers run when the handle raises their signal; the
flags `isFinished` and `isCanceled` of a handle are never cleared; `setFuture` installs
the handle of a job that has not been processed yet. The last rule is the registration
of a new job, modelled from the spec (the registering function is not in the sources):
a fresh id, an unprocessed record, the completion gate held. -/
inductive Step : JobManager → JobManager → Prop where
  | finished (s : JobManager) (id : Int) (job : Job_t) (s1 : JobManager) (e : List Effect) :
      s.m_jobs.lookup id = some job → job.m_future.isFinished = true →
      slotManageFinishedJob s id = some (s1, e) → Step s s1
  | canceled (s : JobManager) (id : Int) (job : Job_t) (s1 : JobManager) (e : List Effect) :
      s.m_jobs.lookup id = some job → job.m_future.isCanceled = true →
      slotManageCanceledJob s id = some (s1, e) → Step s s1
  | discard (s : JobManager) (binId : QString) (type : JOBTYPE) (s1 : JobManager)
      (e : List Effect) :
      discardJobs s binId type = some (s1, e) → Step s s1
  | progress (s : JobManager) (id : Int) (job job1 : Job_t) (i : Nat) (binId : QString)
      (p : Int) (e : List Effect) :
      s.m_jobs.lookup id = some job → jobProgress job i binId p = some (job1, e) →
      Step s (s.setJob id job1)
  | handle (s : JobManager) (id : Int) (job : Job_t) (f : Future) :
      s.m_jobs.lookup id = some job →
      (job.m_future.isFinished = true → f.isFinished = true) →
      (job.m_future.isCanceled = true → f.isCanceled = true) →
      Step s (s.setJob id { job with m_future := f })
  | setFuture (s : JobManager) (id : Int) (job : Job_t) (f : Future) :
      s.m_jobs.lookup id = some job → job.m_processed = false →
      Step s (s.setJob id { job with m_future := f })
  | register (s : JobManager) (job : Job_t) (byClip : List (QString × List Int)) :
      s.m_jobs.lookup job.m_id = none → job.m_completionMutex = true →
      job.m_processed = false →
      Step s { m_jobs := s.m_jobs ++ [(job.m_id, job)], m_jobsByClip := byClip }

/-- The registries the program can reach from the empty one. -/
inductive Reachable : JobManager → Prop where
  | init : Reachable { m_jobs := [], m_jobsByClip := [] }
  | step (s s1 : JobManager) : Reachable s → Step s s1 → Reachable s1

/-- The invariant behind the gate: a released completion mutex belongs to a job that a
terminal handler has processed and whose handle is finished or canceled. -/
def GateInv (s : JobManager) : Prop :=
  ∀ id job, (id, job) ∈ s.m_jobs → job.m_completionMutex = false →
    job.m_processed = true ∧ (job.m_future.isFinished = true ∨ job.m_future.isCanceled = true)

/-- Registry invariant: every job id listed in `ids` is in the job table. -/
def Registered (s : JobManager) (ids : List Int) : Prop :=
  ∀ j ∈ ids, ∃ job, s.m_jobs.lookup j = some job

/-- An effect that is a history push. -/
def Effect.isPushUndo : Effect → Bool
  | Effect.pushUndo _ => true
  | _ => false

/-- An effect that is a call of `commitResult`. -/
def Effect.isCommit : Effect → Bool
  | Effect.commitResult _ _ => true
  | _ => false

/-! ## Predicates used in the statements, and concrete registries -/

/-- A subtask whose commit succeeds. -/
def goodClipJob : AbstractClipJob :=
  { commitResult := true, getErrorMessage := "", getDescription := "transcode" }

/-- A subtask whose commit fails. -/
def badClipJob : AbstractClipJob :=
  { commitResult := false, getErrorMessage := "cannot write", getDescription := "transcode" }

/-- A handle with the given flags `isFinished`, `isCanceled` and results. -/
def handleOf (fin canc : Bool) (results : List Bool) : Future :=
  { isStarted := true, isRunning := false, isFinished := fin, isCanceled := canc,
    results := results }

/-- A one-subtask job for the owner `clipA`, gate held, not processed. -/
def jobOf (id : Int) (sub : AbstractClipJob) (f : Future) : Job_t :=
  { m_job := [sub], m_progress := [0], m_indices := [("clipA", 0)], m_future := f,
    m_completionMutex := true, m_type := JOBTYPE.kind 4, m_undoString := "Transcode",
    m_id := id, m_processed := false, m_failed := false }

/-- A registry holding the single job `job` under the owner `clipA`. -/
def registryOf (job : Job_t) : JobManager :=
  { m_jobs := [(job.m_id, job)], m_jobsByClip := [("clipA", [job.m_id])] }

/-- The job `j` is registered, its handle is neither finished nor canceled, and its type
passes the filter. -/
def pendingOf (s : JobManager) (type : JOBTYPE) (j : Int) : Bool :=
  match s.m_jobs.lookup j with
  | none => false
  | some job => (!job.m_future.isFinished && !job.m_future.isCanceled) && typeMatches type job

/-- The job `j` is registered, its handle is finished or canceled, and its type passes
the filter. -/
def finishedOf (s : JobManager) (type : JOBTYPE) (j : Int) : Bool :=
  match s.m_jobs.lookup j with
  | none => false
  | some job => (job.m_future.isFinished || job.m_future.isCanceled) && typeMatches type job

/-- The job `j` is registered and its type passes the filter. -/
def matchOf (s : JobManager) (type : JOBTYPE) (j : Int) : Bool :=
  match s.m_jobs.lookup j with
  | none => false
  | some job => typeMatches type job

/-- The record after `m_future.cancel()`. -/
def cancelJob (job : Job_t) : Job_t :=
  { job with m_future := job.m_future.cancel }

/-- The registry after the parent job 1 was registered. -/
def parentRegistered : JobManager :=
  { m_jobs := [(1, jobOf 1 goodClipJob (handleOf false false []))],
    m_jobsByClip := [("clipA", [1])] }

/-- The registry after the dependent job 2 was registered, the parent still running. -/
def childRegistered : JobManager :=
  { m_jobs := [(1, jobOf 1 goodClipJob (handleOf false false [])),
               (2, jobOf 2 goodClipJob (handleOf false false []))],
    m_jobsByClip := [("clipA", [1, 2])] }

/-- The same registry once the parent has finished: its handle reports finished. -/
def parentDone : JobManager :=
  childRegistered.setJob 1 (jobOf 1 goodClipJob (handleOf true false [true]))

/-- The registry after the finish handler of the parent has run. -/
def parentProcessed : JobManager :=
  childRegistered.setJob 1
    { jobOf 1 goodClipJob (handleOf true false [true]) with
      m_processed := true, m_completionMutex := false }

/-- What the sweeps of the dependent's `createJob` read: the parent is still running at
sweep 0 and processed from sweep 1 on. -/
def sampleEnv (n : Nat) : JobManager :=
  if n = 0 then childRegistered else parentProcessed

/-- Owner `clipA` has a pending job 1, a finished job 2 and a pending job 3 of another
type; owner `clipB` has the pending job 5. -/
def sampleRegistry : JobManager :=
  { m_jobs :=
      [(1, jobOf 1 goodClipJob (handleOf false false [])),
       (2, jobOf 2 goodClipJob (handleOf true false [true])),
       (3, { jobOf 3 goodClipJob (handleOf false false []) with m_type := JOBTYPE.kind 5 }),
       (5, { jobOf 5 goodClipJob (handleOf false false []) with
               m_indices := [("clipB", 0)] })],
    m_jobsByClip := [("clipA", [1, 2, 3]), ("clipB", [5])] }

/-! ## Association lists and `setJob` -/

theorem lookup_mem {α : Type} (l : List (Int × α)) (k : Int) (v : α)
    (h : l.lookup k = some v) : (k, v) ∈ l := by
  induction l with
  | nil => simp at h
  | cons x xs ih =>
    obtain ⟨a, b⟩ := x
    by_cases hk : k = a
    · subst hk
      simp [List.lookup] at h
      simp [h]
    · have hb : (k == a) = false := by simpa using hk
      simp [List.lookup, hb] at h
      exact List.mem_cons_of_mem _ (ih h)

theorem lookup_map_set {α : Type} (l : List (Int × α)) (id k : Int) (v : α) :
    (l.map (fun e => if e.1 == id then (e.1, v) else e)).lookup k =
      if k = id then (l.lookup k).map (fun _ => v) else l.lookup k := by
  induction l with
  | nil => simp
  | cons x xs ih =>
    obtain ⟨a, b⟩ := x
    rw [List.map_cons]
    by_cases ha : a = id
    · have e1 : (if ((a, b).1 == id) = true then ((a, b).1, v) else (a, b)) = (a, v) := by
        simp [ha]
      rw [e1, List.lookup_cons, List.lookup_cons, ih]
      by_cases hk : k = a
      · have hb : (k == a) = true := by simpa using hk
        simp [hb, hk, ha]
      · have hb : (k == a) = false := by simpa using hk
        simp [hb]
    · have e1 : (if ((a, b).1 == id) = true then ((a, b).1, v) else (a, b)) = (a, b) := by
        simp [ha]
      rw [e1, List.lookup_cons, List.lookup_cons, ih]
      by_cases hk : k = a
      · have hb : (k == a) = true := by simpa using hk
        have hne : ¬ k = id := by rw [hk]; exact ha
        simp [hb, hne]
      · have hb : (k == a) = false := by simpa using hk
        simp [hb]

theorem lookup_setJob (s : JobManager) (id k : Int) (job1 : Job_t) :
    (s.setJob id job1).m_jobs.lookup k =
      if k = id then (s.m_jobs.lookup k).map (fun _ => job1) else s.m_jobs.lookup k := by
  unfold setJob
  exact lookup_map_set s.m_jobs id k job1

theorem lookup_setJob_self (s : JobManager) (id : Int) (job job1 : Job_t)
    (h : s.m_jobs.lookup id = some job) : (s.setJob id job1).m_jobs.lookup id = some job1 := by
  rw [lookup_setJob]
  simp [h]

theorem mem_setJob (s : JobManager) (id : Int) (job1 : Job_t) (k : Int) (j : Job_t)
    (h : (k, j) ∈ (s.setJob id job1).m_jobs) :
    (k ≠ id ∧ (k, j) ∈ s.m_jobs) ∨ (k = id ∧ j = job1) := by
  unfold setJob at h
  simp only [List.mem_map] at h
  obtain ⟨⟨a, b⟩, hmem, heq⟩ := h
  by_cases ha : a = id
  · subst ha
    simp at heq
    exact Or.inr ⟨heq.1.symm, heq.2.symm⟩
  · have hb : (a == id) = false := by simpa using ha
    simp [hb] at heq
    obtain ⟨h1, h2⟩ := heq
    subst h1
    subst h2
    exact Or.inl ⟨ha, hmem⟩

/-! ## The loops of the finish handler -/

theorem resultsOk_eq (ok : Bool) (results : List Bool) :
    resultsOk ok results = (ok && results.all (fun r => r)) := by
  unfold resultsOk
  induction results generalizing ok with
  | nil => simp
  | cons r rs ih =>
    simp only [List.foldl_cons, List.all_cons]
    rw [ih]
    cases ok <;> cases r <;> simp

theorem commitLoop_fst (id : Int) (js : List AbstractClipJob) (i : Nat) (ok : Bool)
    (eff : List Effect) :
    (commitLoop id js i ok eff).1 = (ok && js.all (fun j => j.commitResult)) := by
  induction js generalizing i ok eff with
  | nil => simp [commitLoop]
  | cons j rest ih =>
    cases ok
    · simp only [commitLoop, Bool.false_eq_true, if_false]
      rw [ih]
      simp
    · simp only [commitLoop, if_true]
      rw [ih]
      simp

theorem commitLoop_snd (id : Int) (js : List AbstractClipJob) (i : Nat) (ok : Bool)
    (eff : List Effect) :
    ∃ cs, (commitLoop id js i ok eff).2 = eff ++ cs ∧ ∀ x ∈ cs, x.isCommit = true := by
  induction js generalizing i ok eff with
  | nil => exact ⟨[], by simp [commitLoop]⟩
  | cons j rest ih =>
    cases ok
    · simp only [commitLoop, Bool.false_eq_true, if_false]
      exact ih (i + 1) false eff
    · simp only [commitLoop, if_true]
      obtain ⟨cs, h1, h2⟩ := ih (i + 1) j.commitResult (eff ++ [Effect.commitResult id i])
      refine ⟨Effect.commitResult id i :: cs, ?_, ?_⟩
      · rw [h1]; simp
      · intro x hx
        rcases List.mem_cons.mp hx with h | h
        · subst h; rfl
        · exact h2 x h

theorem filter_push_of_commits (cs : List Effect) (h : ∀ x ∈ cs, x.isCommit = true) :
    cs.filter Effect.isPushUndo = [] := by
  rw [List.filter_eq_nil_iff]
  intro x hx
  have := h x hx
  cases x <;> simp_all [Effect.isCommit, Effect.isPushUndo]

theorem filter_push_notifyOwners (job : Job_t) :
    (notifyOwners job).filter Effect.isPushUndo = [] := by
  rw [List.filter_eq_nil_iff]
  intro x hx
  unfold notifyOwners at hx
  obtain ⟨it, _, rfl⟩ := List.mem_map.mp hx
  simp [Effect.isPushUndo]

/-- A processed job turns both terminal handlers into no-ops. -/
theorem runTerminal_processed (s : JobManager) (id : Int) (job : Job_t)
    (hreg : s.m_jobs.lookup id = some job) (hproc : job.m_processed = true) (t : Terminal) :
    runTerminal s id t = some (s, []) := by
  cases t <;> simp [runTerminal, slotManageFinishedJob, slotManageCanceledJob, hreg, hproc]

theorem runTerminals_processed (s : JobManager) (id : Int) (job : Job_t)
    (hreg : s.m_jobs.lookup id = some job) (hproc : job.m_processed = true)
    (ts : List Terminal) : runTerminals s id ts = some (s, []) := by
  induction ts with
  | nil => rfl
  | cons t ts ih => simp [runTerminals, runTerminal_processed s id job hreg hproc t, ih]

/-- The first terminal handler returns and leaves the job registered and processed. -/
theorem runTerminal_marks (s : JobManager) (id : Int) (job : Job_t)
    (hreg : s.m_jobs.lookup id = some job) (t : Terminal) :
    ∃ s1 e1 job1, runTerminal s id t = some (s1, e1) ∧ s1.m_jobs.lookup id = some job1 ∧
      job1.m_processed = true := by
  by_cases hproc : job.m_processed = true
  · exact ⟨s, [], job, runTerminal_processed s id job hreg hproc t, hreg, hproc⟩
  · have hp : job.m_processed = false := by simpa using hproc
    cases t with
    | canceled =>
      simp only [runTerminal, slotManageCanceledJob, hreg, hp]
      exact ⟨_, _, _, rfl, lookup_setJob_self s id job _ hreg, rfl⟩
    | finished =>
      simp only [runTerminal, slotManageFinishedJob, hreg, hp]
      by_cases hok : resultsOk true job.m_future.results = true
      · simp only [hok]
        refine ⟨_, _, _, rfl, lookup_setJob_self s id job _ hreg, ?_⟩
        split <;> rfl
      · have hok2 : resultsOk true job.m_future.results = false := by simpa using hok
        simp only [hok2]
        exact ⟨_, _, _, rfl, lookup_setJob_self s id job _ hreg, rfl⟩

/-- The history pushes of a first run of the finish handler, in closed form. -/
theorem finished_pushes (s : JobManager) (id : Int) (job : Job_t)
    (hreg : s.m_jobs.lookup id = some job) (hproc : job.m_processed = false) :
    ∃ s1 e, slotManageFinishedJob s id = some (s1, e) ∧
      e.filter Effect.isPushUndo =
        if (job.m_future.results.all (fun r => r) && job.m_job.all (fun j => j.commitResult)
            && !job.m_undoString.isEmpty) = true
        then [Effect.pushUndo job.m_undoString] else [] := by
  simp only [slotManageFinishedJob, hreg, hproc]
  have hok := resultsOk_eq true job.m_future.results
  simp only [Bool.true_and] at hok
  by_cases hres : job.m_future.results.all (fun r => r) = true
  · rw [hok, hres]
    simp only [Bool.not_true, Bool.false_eq_true, if_false]
    refine ⟨_, _, rfl, ?_⟩
    obtain ⟨cs, hcs, hall⟩ := commitLoop_snd id job.m_job 0 true []
    have hfst := commitLoop_fst id job.m_job 0 true []
    simp only [Bool.true_and] at hfst
    simp only [List.nil_append] at hcs
    rw [hcs, hfst]
    simp only [List.filter_append, filter_push_notifyOwners, filter_push_of_commits cs hall,
      List.nil_append, Bool.true_and]
    have htail : List.filter Effect.isPushUndo [Effect.unlock id, updateJobCount
        (s.setJob id
          { (if (!job.m_job.all (fun j => j.commitResult)) = true then
              { ({ job with m_processed := true } : Job_t) with m_failed := true }
             else { job with m_processed := true }) with m_completionMutex := false })] = [] := by
      simp [updateJobCount, Effect.isPushUndo]
    rw [htail]
    by_cases hc : (job.m_job.all (fun j => j.commitResult) && !job.m_undoString.isEmpty) = true
    · simp [hc, Effect.isPushUndo]
    · simp [hc]
  · have hres2 : job.m_future.results.all (fun r => r) = false := by simpa using hres
    rw [hok, hres2]
    simp only [Bool.not_false, if_true, Bool.false_and, Bool.false_eq_true, if_false]
    exact ⟨_, _, rfl, filter_push_notifyOwners job⟩

/-- C1: for a registered job that has not been processed, the finish handler
`slotManageFinishedJob` returns, and it pushes a history entry if and only if every
execution result is true, every subtask's `commitResult` answers true and the undo label
is not empty; when it pushes, the pushes are exactly one `pushUndo` with the job's label. -/
theorem slotManageFinishedJob_pushUndo_iff (s : JobManager) (id : Int) (job : Job_t)
    (hreg : s.m_jobs.lookup id = some job) (hproc : job.m_processed = false) :
    ∃ s1 e, slotManageFinishedJob s id = some (s1, e) ∧
      ((∃ x ∈ e, x.isPushUndo = true) ↔
        ((∀ r ∈ job.m_future.results, r = true) ∧ (∀ j ∈ job.m_job, j.commitResult = true) ∧
          job.m_undoString.isEmpty = false)) ∧
      ((∃ x ∈ e, x.isPushUndo = true) →
        e.filter Effect.isPushUndo = [Effect.pushUndo job.m_undoString]) := by
  obtain ⟨s1, e, hrun, hpush⟩ := finished_pushes s id job hreg hproc
  refine ⟨s1, e, hrun, ?_, ?_⟩
  · have hex : (∃ x ∈ e, x.isPushUndo = true) ↔ e.filter Effect.isPushUndo ≠ [] := by
      rw [Ne, List.filter_eq_nil_iff]
      push_neg
      rfl
    rw [hex, hpush]
    by_cases hc : (job.m_future.results.all (fun r => r) &&
        job.m_job.all (fun j => j.commitResult) && !job.m_undoString.isEmpty) = true
    · rw [if_pos hc]
      simp only [Bool.and_eq_true, List.all_eq_true, Bool.not_eq_true'] at hc
      simp only [ne_eq, List.cons_ne_nil, not_false_eq_true, true_iff]
      exact ⟨hc.1.1, hc.1.2, hc.2⟩
    · rw [if_neg hc]
      simp only [ne_eq, not_true_eq_false, false_iff]
      intro hP
      apply hc
      simp only [Bool.and_eq_true, List.all_eq_true, Bool.not_eq_true']
      exact ⟨⟨hP.1, hP.2.1⟩, hP.2.2⟩
  · intro hex
    rw [hpush]
    by_cases hc : (job.m_future.results.all (fun r => r) &&
        job.m_job.all (fun j => j.commitResult) && !job.m_undoString.isEmpty) = true
    · rw [if_pos hc]
    · exfalso
      obtain ⟨x, hx, hxp⟩ := hex
      have : x ∈ e.filter Effect.isPushUndo := List.mem_filter.mpr ⟨hx, hxp⟩
      rw [hpush, if_neg hc] at this
      simp at this

/-! ## The terminal handlers, run in sequence -/

/-- C1, at a concrete input: the job J1 of the spec's scenario (one subtask, execution
and commit succeed, label `Transcode`). -/
theorem slotManageFinishedJob_pushUndo_iff_witness :
    ∃ s1 e, slotManageFinishedJob (registryOf (jobOf 1 goodClipJob (handleOf true false [true]))) 1
        = some (s1, e) ∧
      ((∃ x ∈ e, x.isPushUndo = true) ↔
        ((∀ r ∈ (jobOf 1 goodClipJob (handleOf true false [true])).m_future.results, r = true) ∧
          (∀ j ∈ (jobOf 1 goodClipJob (handleOf true false [true])).m_job,
            j.commitResult = true) ∧
          (jobOf 1 goodClipJob (handleOf true false [true])).m_undoString.isEmpty = false)) ∧
      ((∃ x ∈ e, x.isPushUndo = true) →
        e.filter Effect.isPushUndo =
          [Effect.pushUndo (jobOf 1 goodClipJob (handleOf true false [true])).m_undoString]) :=
  slotManageFinishedJob_pushUndo_iff (registryOf (jobOf 1 goodClipJob (handleOf true false [true])))
    1 (jobOf 1 goodClipJob (handleOf true false [true])) (by rfl) (by rfl)

/-- C2: for a registered job and any sequence of calls of the two terminal handlers,
the first call returns and leaves the job processed; every later call and every later
sequence of calls, whatever the handlers, returns the registry unchanged and makes no
call on a collaborator, so the whole sequence has the state and the effects of its first
call alone. When the job was
processed before the sequence, the first call is such a no-op too. -/
theorem terminal_handlers_run_once (s : JobManager) (id : Int) (job : Job_t)
    (hreg : s.m_jobs.lookup id = some job) (t : Terminal) (ts : List Terminal) :
    ∃ s1 e1 job1, runTerminal s id t = some (s1, e1) ∧
      s1.m_jobs.lookup id = some job1 ∧ job1.m_processed = true ∧
      (∀ t2 : Terminal, runTerminal s1 id t2 = some (s1, [])) ∧
      (∀ ts2 : List Terminal, runTerminals s1 id ts2 = some (s1, [])) ∧
      runTerminals s id (t :: ts) = some (s1, e1) ∧
      (job.m_processed = true → s1 = s ∧ e1 = []) := by
  obtain ⟨s1, e1, job1, hrun, hreg1, hproc1⟩ := runTerminal_marks s id job hreg t
  refine ⟨s1, e1, job1, hrun, hreg1, hproc1, ?_, ?_, ?_, ?_⟩
  · intro t2
    exact runTerminal_processed s1 id job1 hreg1 hproc1 t2
  · intro ts2
    exact runTerminals_processed s1 id job1 hreg1 hproc1 ts2
  · simp [runTerminals, hrun, runTerminals_processed s1 id job1 hreg1 hproc1 ts]
  · intro hp
    have h := runTerminal_processed s id job hreg hp t
    rw [hrun] at h
    simp only [Option.some.injEq, Prod.mk.injEq] at h
    exact h

/-- C2, at a concrete input: finish, then cancel, then finish again on a fresh job. -/
theorem terminal_handlers_run_once_witness :
    ∃ s1 e1 job1,
      runTerminal (registryOf (jobOf 1 goodClipJob (handleOf true true [true]))) 1
        Terminal.finished = some (s1, e1) ∧
      s1.m_jobs.lookup 1 = some job1 ∧ job1.m_processed = true ∧
      (∀ t2 : Terminal, runTerminal s1 1 t2 = some (s1, [])) ∧
      (∀ ts2 : List Terminal, runTerminals s1 1 ts2 = some (s1, [])) ∧
      runTerminals (registryOf (jobOf 1 goodClipJob (handleOf true true [true]))) 1
        (Terminal.finished :: [Terminal.canceled, Terminal.finished]) = some (s1, e1) ∧
      ((jobOf 1 goodClipJob (handleOf true true [true])).m_processed = true →
        s1 = registryOf (jobOf 1 goodClipJob (handleOf true true [true])) ∧ e1 = []) :=
  terminal_handlers_run_once (registryOf (jobOf 1 goodClipJob (handleOf true true [true]))) 1
    (jobOf 1 goodClipJob (handleOf true true [true])) (by rfl) Terminal.finished
    [Terminal.canceled, Terminal.finished]

/-- C4, at the failing input: a registered, unprocessed job whose gate is held and whose
only execution result is false. The finish handler returns after the notifications, at
`if (!ok) return;`: the job is processed, the completion mutex is still held, and neither
the release nor `updateJobCount` happened. -/
theorem slotManageFinishedJob_keeps_gate_on_failure :
    slotManageFinishedJob (registryOf (jobOf 4 goodClipJob (handleOf true false [false]))) 4 =
      some (registryOf { jobOf 4 goodClipJob (handleOf true false [false]) with
              m_processed := true, m_completionMutex := true },
            [Effect.onItemUpdated "clipA"]) := by
  decide

/-- The cancel handler on a registered job: it returns, leaves the job processed, keeps
`m_failed`, and neither commits nor pushes. -/
theorem canceled_effects (s : JobManager) (id : Int) (job : Job_t)
    (hreg : s.m_jobs.lookup id = some job) :
    ∃ s1 e1 job1, slotManageCanceledJob s id = some (s1, e1) ∧
      s1.m_jobs.lookup id = some job1 ∧ job1.m_processed = true ∧
      job1.m_failed = job.m_failed ∧
      ∀ x ∈ e1, x.isPushUndo = false ∧ x.isCommit = false := by
  by_cases hproc : job.m_processed = true
  · refine ⟨s, [], job, ?_, hreg, hproc, rfl, ?_⟩
    · simp [slotManageCanceledJob, hreg, hproc]
    · intro x hx
      simp at hx
  · have hp : job.m_processed = false := by simpa using hproc
    simp only [slotManageCanceledJob, hreg, hp]
    refine ⟨_, _, _, rfl, lookup_setJob_self s id job _ hreg, rfl, rfl, ?_⟩
    intro x hx
    simp only [List.mem_append, List.mem_singleton, Bool.false_eq_true, if_false] at hx
    rcases hx with (rfl | hx) | rfl
    · exact ⟨rfl, rfl⟩
    · unfold notifyOwners at hx
      obtain ⟨it, _, rfl⟩ := List.mem_map.mp hx
      exact ⟨rfl, rfl⟩
    · exact ⟨rfl, rfl⟩

/-- C7 as stated fails: a job whose handle reports canceled and whose finish handler runs
first. With a true result and a succeeding commit the sequence finish, cancel commits
and pushes the history entry; with no result yet and a failing commit it commits and
sets `m_failed`; and the manual check at the end of `createJob` delivers exactly this
order when the new handle is both finished and canceled. -/
theorem finished_first_on_canceled_job :
    (handleOf true true [true]).isCanceled = true ∧
    runTerminals (registryOf (jobOf 3 goodClipJob (handleOf true true [true]))) 3
        [Terminal.finished, Terminal.canceled] =
      some (registryOf { jobOf 3 goodClipJob (handleOf true true [true]) with
              m_processed := true, m_completionMutex := false },
            [Effect.onItemUpdated "clipA", Effect.commitResult 3 0,
              Effect.pushUndo "Transcode", Effect.unlock 3, Effect.jobCount 0]) ∧
    runTerminals (registryOf (jobOf 3 badClipJob (handleOf true true []))) 3
        [Terminal.finished, Terminal.canceled] =
      some (registryOf { jobOf 3 badClipJob (handleOf true true []) with
              m_processed := true, m_completionMutex := false, m_failed := true },
            [Effect.onItemUpdated "clipA", Effect.commitResult 3 0, Effect.unlock 3,
              Effect.jobCount 0]) ∧
    createJob (fun _ => registryOf (jobOf 3 goodClipJob (handleOf false false []))) 1 3 []
        (handleOf true true [true]) =
      some (0, registryOf { jobOf 3 goodClipJob (handleOf true true [true]) with
              m_processed := true, m_completionMutex := false },
            [Effect.mapped 3, Effect.onItemUpdated "clipA", Effect.commitResult 3 0,
              Effect.pushUndo "Transcode", Effect.unlock 3, Effect.jobCount 0,
              Effect.jobCount 0, Effect.jobCount 0]) := by
  decide

/-- C7, amended: for a registered job whose handle reports canceled, every sequence of
terminal-handler calls that starts with the cancel handler returns, contains no call of
`commitResult` and no history push, and leaves `m_failed` as it was. -/
theorem canceled_first_no_commit (s : JobManager) (id : Int) (job : Job_t)
    (hreg : s.m_jobs.lookup id = some job) (_hc : job.m_future.isCanceled = true)
    (ts : List Terminal) :
    ∃ s1 e job1, runTerminals s id (Terminal.canceled :: ts) = some (s1, e) ∧
      (∀ x ∈ e, x.isPushUndo = false ∧ x.isCommit = false) ∧
      s1.m_jobs.lookup id = some job1 ∧ job1.m_failed = job.m_failed := by
  obtain ⟨s1, e1, job1, hrun, hreg1, hproc1, hfail, heff⟩ := canceled_effects s id job hreg
  refine ⟨s1, e1, job1, ?_, heff, hreg1, hfail⟩
  simp [runTerminals, runTerminal, hrun, runTerminals_processed s1 id job1 hreg1 hproc1 ts]

/-- C7 amended, at a concrete input: cancel, then finish, on a canceled job whose result
and commit would both succeed. -/
theorem canceled_first_no_commit_witness :
    ∃ s1 e job1,
      runTerminals (registryOf (jobOf 3 goodClipJob (handleOf true true [true]))) 3
        (Terminal.canceled :: [Terminal.finished]) = some (s1, e) ∧
      (∀ x ∈ e, x.isPushUndo = false ∧ x.isCommit = false) ∧
      s1.m_jobs.lookup 3 = some job1 ∧
      job1.m_failed = (jobOf 3 goodClipJob (handleOf true true [true])).m_failed :=
  canceled_first_no_commit (registryOf (jobOf 3 goodClipJob (handleOf true true [true]))) 3
    (jobOf 3 goodClipJob (handleOf true true [true])) (by rfl) (by rfl) [Terminal.finished]

/-- C8 as stated fails: a canceled handle that also reports finished has the status
Finished, because `isFinished` is tested first. -/
theorem getJobStatus_canceled_and_finished :
    (jobOf 3 goodClipJob (handleOf true true [])).m_future.isCanceled = true ∧
    getJobStatus (registryOf (jobOf 3 goodClipJob (handleOf true true []))) 3 =
      some JobManagerStatus.Finished := by
  decide

/-- C8, amended: for a registered job whose handle reports canceled and does not report
finished, `getJobStatus` returns Canceled, whatever the running flag is. -/
theorem getJobStatus_canceled (s : JobManager) (jobId : Int) (job : Job_t)
    (hreg : s.m_jobs.lookup jobId = some job) (hc : job.m_future.isCanceled = true)
    (hf : job.m_future.isFinished = false) :
    getJobStatus s jobId = some JobManagerStatus.Canceled := by
  simp [getJobStatus, hreg, hc, hf]

/-- C8 amended, at a concrete input: a job canceled before it started, handle running. -/
theorem getJobStatus_canceled_witness :
    getJobStatus (registryOf (jobOf 3 goodClipJob
        { isStarted := false, isRunning := true, isFinished := false, isCanceled := true,
          results := [] })) 3 = some JobManagerStatus.Canceled :=
  getJobStatus_canceled _ 3 (jobOf 3 goodClipJob
        { isStarted := false, isRunning := true, isFinished := false, isCanceled := true,
          results := [] }) (by rfl) (by rfl) (by rfl)

/-! ## The queries by owner -/

theorem registered_tail (s : JobManager) (j : Int) (rest : List Int)
    (h : Registered s (j :: rest)) : Registered s rest :=
  fun k hk => h k (List.mem_cons_of_mem _ hk)

theorem pending_loop_eq (s : JobManager) (type : JOBTYPE) (ids acc : List Int)
    (hreg : Registered s ids) :
    getPendingJobsIds.loop s type ids acc = some (acc ++ ids.filter (pendingOf s type)) := by
  induction ids generalizing acc with
  | nil => simp [getPendingJobsIds.loop]
  | cons j rest ih =>
    obtain ⟨job, hj⟩ := hreg j (List.mem_cons_self _ _)
    have hrest := registered_tail s j rest hreg
    have hp : pendingOf s type j =
        ((!job.m_future.isFinished && !job.m_future.isCanceled) && typeMatches type job) := by
      simp [pendingOf, hj]
    simp only [getPendingJobsIds.loop, hj]
    by_cases h1 : (!job.m_future.isFinished && !job.m_future.isCanceled) = true
    · by_cases h2 : (type == JOBTYPE.NOJOBTYPE || job.m_type == type) = true
      · have hp2 : pendingOf s type j = true := by rw [hp, h1]; simpa [typeMatches] using h2
        rw [if_pos h1, if_pos h2, ih _ hrest, List.filter_cons_of_pos hp2]
        simp
      · have hp2 : ¬ pendingOf s type j = true := by
          rw [hp, h1]; simpa [typeMatches] using h2
        rw [if_pos h1, if_neg h2, ih _ hrest, List.filter_cons_of_neg hp2]
    · have hp2 : ¬ pendingOf s type j = true := by
        rw [hp]
        intro hc
        exact h1 (Bool.and_eq_true_iff.mp hc).1
      rw [if_neg h1, ih _ hrest, List.filter_cons_of_neg hp2]

theorem finished_loop_eq (s : JobManager) (type : JOBTYPE) (ids acc : List Int)
    (hreg : Registered s ids) :
    getFinishedJobsIds.loop s type ids acc = some (acc ++ ids.filter (finishedOf s type)) := by
  induction ids generalizing acc with
  | nil => simp [getFinishedJobsIds.loop]
  | cons j rest ih =>
    obtain ⟨job, hj⟩ := hreg j (List.mem_cons_self _ _)
    have hrest := registered_tail s j rest hreg
    have hp : finishedOf s type j =
        ((job.m_future.isFinished || job.m_future.isCanceled) && typeMatches type job) := by
      simp [finishedOf, hj]
    simp only [getFinishedJobsIds.loop, hj]
    by_cases h1 : (job.m_future.isFinished || job.m_future.isCanceled) = true
    · by_cases h2 : (type == JOBTYPE.NOJOBTYPE || job.m_type == type) = true
      · have hp2 : finishedOf s type j = true := by rw [hp, h1]; simpa [typeMatches] using h2
        rw [if_pos h1, if_pos h2, ih _ hrest, List.filter_cons_of_pos hp2]
        simp
      · have hp2 : ¬ finishedOf s type j = true := by
          rw [hp, h1]; simpa [typeMatches] using h2
        rw [if_pos h1, if_neg h2, ih _ hrest, List.filter_cons_of_neg hp2]
    · have hp2 : ¬ finishedOf s type j = true := by
        rw [hp]
        intro hc
        exact h1 (Bool.and_eq_true_iff.mp hc).1
      rw [if_neg h1, ih _ hrest, List.filter_cons_of_neg hp2]

theorem hasPending_loop_eq (s : JobManager) (type : JOBTYPE) (ids : List Int)
    (hreg : Registered s ids) :
    hasPendingJob.loop s type ids =
      some (match ids.filter (pendingOf s type) with
        | [] => (false, -1)
        | j :: _ => (true, j)) := by
  induction ids with
  | nil => simp [hasPendingJob.loop]
  | cons j rest ih =>
    obtain ⟨job, hj⟩ := hreg j (List.mem_cons_self _ _)
    have hrest := registered_tail s j rest hreg
    have hp : pendingOf s type j =
        ((type == JOBTYPE.NOJOBTYPE || job.m_type == type) && !job.m_future.isFinished &&
          !job.m_future.isCanceled) := by
      simp only [pendingOf, hj, typeMatches]
      cases (type == JOBTYPE.NOJOBTYPE || job.m_type == type) <;>
        cases job.m_future.isFinished <;> cases job.m_future.isCanceled <;> rfl
    simp only [hasPendingJob.loop, hj]
    by_cases h1 : ((type == JOBTYPE.NOJOBTYPE || job.m_type == type) &&
        !job.m_future.isFinished && !job.m_future.isCanceled) = true
    · have hp2 : pendingOf s type j = true := by rw [hp]; exact h1
      rw [if_pos h1, List.filter_cons_of_pos hp2]
    · have hp2 : ¬ pendingOf s type j = true := by rw [hp]; exact h1
      rw [if_neg h1, ih hrest, List.filter_cons_of_neg hp2]

/-- C5: for a known owner whose listed job ids are all registered, `getPendingJobsIds`
and `getFinishedJobsIds` both return; no job id is in both results; a job id is in
one of them if and only if it is listed for the owner and its type passes the filter
(`NOJOBTYPE` passes every type); and the pending ones are those whose handle is neither
finished nor canceled. -/
theorem pending_finished_partition (s : JobManager) (owner : QString) (type : JOBTYPE)
    (ids : List Int) (hown : s.m_jobsByClip.lookup owner = some ids)
    (hreg : Registered s ids) :
    ∃ p f, getPendingJobsIds s owner type = some p ∧
      getFinishedJobsIds s owner type = some f ∧
      (∀ j, ¬ (j ∈ p ∧ j ∈ f)) ∧
      (∀ j, (j ∈ p ∨ j ∈ f) ↔
        (j ∈ ids ∧ ∃ job, s.m_jobs.lookup j = some job ∧
          (type = JOBTYPE.NOJOBTYPE ∨ job.m_type = type))) ∧
      (∀ j, j ∈ p ↔
        (j ∈ ids ∧ ∃ job, s.m_jobs.lookup j = some job ∧
          (type = JOBTYPE.NOJOBTYPE ∨ job.m_type = type) ∧
          job.m_future.isFinished = false ∧ job.m_future.isCanceled = false)) := by
  refine ⟨ids.filter (pendingOf s type), ids.filter (finishedOf s type), ?_, ?_, ?_, ?_, ?_⟩
  · simp [getPendingJobsIds, hown, pending_loop_eq s type ids [] hreg]
  · simp [getFinishedJobsIds, hown, finished_loop_eq s type ids [] hreg]
  · intro j ⟨hp, hf⟩
    have h1 := (List.mem_filter.mp hp).2
    have h2 := (List.mem_filter.mp hf).2
    obtain ⟨job, hj⟩ := hreg j (List.mem_filter.mp hp).1
    simp only [pendingOf, finishedOf, hj] at h1 h2
    revert h1 h2
    cases job.m_future.isFinished <;> cases job.m_future.isCanceled <;> simp
  · intro j
    simp only [List.mem_filter]
    constructor
    · rintro (⟨hm, hp⟩ | ⟨hm, hp⟩)
      · obtain ⟨job, hj⟩ := hreg j hm
        refine ⟨hm, job, hj, ?_⟩
        simp only [pendingOf, hj, typeMatches, Bool.and_eq_true, Bool.or_eq_true,
          beq_iff_eq] at hp
        exact hp.2
      · obtain ⟨job, hj⟩ := hreg j hm
        refine ⟨hm, job, hj, ?_⟩
        simp only [finishedOf, hj, typeMatches, Bool.and_eq_true, Bool.or_eq_true,
          beq_iff_eq] at hp
        exact hp.2
    · rintro ⟨hm, job, hj, ht⟩
      have htm : typeMatches type job = true := by
        simpa [typeMatches] using ht
      by_cases hd : (job.m_future.isFinished || job.m_future.isCanceled) = true
      · right
        exact ⟨hm, by simp only [finishedOf, hj, hd, htm]; rfl⟩
      · left
        refine ⟨hm, ?_⟩
        simp only [pendingOf, hj, htm]
        revert hd
        cases job.m_future.isFinished <;> cases job.m_future.isCanceled <;> simp
  · intro j
    simp only [List.mem_filter]
    constructor
    · rintro ⟨hm, hp⟩
      obtain ⟨job, hj⟩ := hreg j hm
      refine ⟨hm, job, hj, ?_⟩
      simp only [pendingOf, hj, typeMatches, Bool.and_eq_true, Bool.or_eq_true,
        beq_iff_eq, Bool.not_eq_true'] at hp
      exact ⟨hp.2, hp.1.1, hp.1.2⟩
    · rintro ⟨hm, job, hj, ht, hf, hc⟩
      refine ⟨hm, ?_⟩
      have htm : typeMatches type job = true := by
        simpa [typeMatches] using ht
      simp [pendingOf, hj, htm, hf, hc]

/-- C10: for a known owner whose listed job ids are all registered, `hasPendingJob` and
`getPendingJobsIds` both return; the boolean is true if and only if the pending list is
not empty; when it is true the found id is the first element of the pending list, and
when it is false the found id is -1. -/
theorem hasPendingJob_refines (s : JobManager) (owner : QString) (type : JOBTYPE)
    (ids : List Int) (hown : s.m_jobsByClip.lookup owner = some ids)
    (hreg : Registered s ids) :
    ∃ p r, getPendingJobsIds s owner type = some p ∧ hasPendingJob s owner type = some r ∧
      (r.1 = true ↔ p ≠ []) ∧ (r.1 = true → p.head? = some r.2) ∧
      (r.1 = false → r.2 = -1) := by
  refine ⟨ids.filter (pendingOf s type),
    (match ids.filter (pendingOf s type) with
      | [] => (false, -1)
      | j :: _ => (true, j)), ?_, ?_, ?_⟩
  · simp [getPendingJobsIds, hown, pending_loop_eq s type ids [] hreg]
  · simp only [hasPendingJob, hown]
    exact hasPending_loop_eq s type ids hreg
  · cases ids.filter (pendingOf s type) with
    | nil => simp
    | cons j rest => simp

/-! ## The progress handler -/

theorem foldl_max_ge (ps : List Int) (init : Int) : init ≤ ps.foldl max init := by
  induction ps generalizing init with
  | nil => simp
  | cons p ps ih =>
    simp only [List.foldl_cons]
    exact le_trans (le_max_left init p) (ih (max init p))

theorem foldl_max_mem_ge (ps : List Int) (init p : Int) (hp : p ∈ ps) :
    p ≤ ps.foldl max init := by
  induction ps generalizing init with
  | nil => simp at hp
  | cons q qs ih =>
    simp only [List.foldl_cons]
    rcases List.mem_cons.mp hp with h | h
    · subst h
      exact le_trans (le_max_right init p) (foldl_max_ge qs _)
    · exact ih _ h

theorem foldl_max_attained (ps : List Int) (init : Int) :
    ps.foldl max init = init ∨ ps.foldl max init ∈ ps := by
  induction ps generalizing init with
  | nil => simp
  | cons q qs ih =>
    simp only [List.foldl_cons]
    rcases ih (max init q) with h | h
    · rcases max_choice init q with hm | hm
      · left; rw [h, hm]
      · right; rw [h, hm]; exact List.mem_cons_self _ _
    · right; exact List.mem_cons_of_mem _ h

theorem set_get_self {α : Type} (l : List α) (i : Nat) (h : i < l.length) :
    l.set i (l.get ⟨i, h⟩) = l := by
  induction l generalizing i with
  | nil => simp at h
  | cons x xs ih =>
    cases i with
    | zero => simp
    | succ n =>
      simp only [List.set_cons_succ, List.get_cons_succ, List.cons.injEq, true_and]
      exact ih n (by simpa using h)

theorem runProgress_eq (job : Job_t) (i : Nat) (binId : QString) (ps : List Int)
    (hi : i < job.m_progress.length) :
    runProgress job i binId ps =
      some ({ job with
              m_progress := job.m_progress.set i (ps.foldl max (job.m_progress.get ⟨i, hi⟩)) },
            ps.map (fun _ => Effect.onItemUpdated binId)) := by
  induction ps generalizing job with
  | nil =>
    simp only [runProgress, List.foldl_nil, List.map_nil]
    rw [set_get_self]
  | cons p ps ih =>
    have hlen : i < (job.m_progress.set i (max (job.m_progress.get ⟨i, hi⟩) p)).length := by
      simpa using hi
    simp only [runProgress, jobProgress, hi, dite_true]
    rw [ih _ hlen]
    simp

/-- C9: for every job, every index `i` of `m_progress` and every sequence of reported
values, the handler returns at each report; one report sets `m_progress[i]` to
`max(m_progress[i], reported)`; after the sequence the job differs from the initial one
only in `m_progress[i]`, which is the maximum of its initial value and of the values
reported (not below the initial value, not below any reported value, and equal to one
of them); the length of `m_progress` and every other entry are unchanged; and the value
after a shorter sequence of reports is never above the value after a longer one. -/
theorem jobProgress_max (job : Job_t) (i : Nat) (binId : QString) (ps : List Int)
    (hi : i < job.m_progress.length) :
    (∀ p, jobProgress job i binId p =
      some ({ job with m_progress := job.m_progress.set i (max (job.m_progress.get ⟨i, hi⟩) p) },
        [Effect.onItemUpdated binId])) ∧
    ∃ job1 e, runProgress job i binId ps = some (job1, e) ∧
      job1 = { job with
        m_progress := job.m_progress.set i (ps.foldl max (job.m_progress.get ⟨i, hi⟩)) } ∧
      job1.m_progress.length = job.m_progress.length ∧
      job1.m_progress[i]? = some (ps.foldl max (job.m_progress.get ⟨i, hi⟩)) ∧
      (∀ k, k ≠ i → job1.m_progress[k]? = job.m_progress[k]?) ∧
      job.m_progress.get ⟨i, hi⟩ ≤ ps.foldl max (job.m_progress.get ⟨i, hi⟩) ∧
      (∀ p ∈ ps, p ≤ ps.foldl max (job.m_progress.get ⟨i, hi⟩)) ∧
      (ps.foldl max (job.m_progress.get ⟨i, hi⟩) = job.m_progress.get ⟨i, hi⟩ ∨
        ps.foldl max (job.m_progress.get ⟨i, hi⟩) ∈ ps) ∧
      (∀ qs rest, ps = qs ++ rest →
        qs.foldl max (job.m_progress.get ⟨i, hi⟩) ≤
          ps.foldl max (job.m_progress.get ⟨i, hi⟩)) := by
  refine ⟨?_, _, _, runProgress_eq job i binId ps hi, rfl, ?_, ?_, ?_, ?_, ?_, ?_, ?_⟩
  · intro p
    simp [jobProgress, hi]
  · simp
  · simp [hi]
  · intro k hk
    simp [List.getElem?_set_ne (Ne.symm hk)]
  · exact foldl_max_ge ps _
  · intro p hp
    exact foldl_max_mem_ge ps _ p hp
  · exact foldl_max_attained ps _
  · intro qs rest hps
    subst hps
    rw [List.foldl_append]
    exact foldl_max_ge rest _

/-- C9, at a concrete input: reports 30, 10, 50, 20 on a two-subtask job. -/
theorem jobProgress_max_witness :
    runProgress { jobOf 1 goodClipJob (handleOf false false []) with m_progress := [0, 7] }
        0 "clipA" [30, 10, 50, 20] =
      some ({ jobOf 1 goodClipJob (handleOf false false []) with m_progress := [50, 7] },
        [Effect.onItemUpdated "clipA", Effect.onItemUpdated "clipA",
          Effect.onItemUpdated "clipA", Effect.onItemUpdated "clipA"]) ∧
    ((0 : Int) ≤ 50 ∧ ∀ p ∈ [(30 : Int), 10, 50, 20], p ≤ 50) := by
  have h := jobProgress_max
    { jobOf 1 goodClipJob (handleOf false false []) with m_progress := [0, 7] }
    0 "clipA" [30, 10, 50, 20] (by decide)
  obtain ⟨_, job1, e, hrun, _, _, _, _, hge, hall, _, _⟩ := h
  refine ⟨by decide, ?_, ?_⟩
  · exact hge
  · exact hall

/-! ## `discardJobs` -/

theorem cancelJob_cancelJob (job : Job_t) : cancelJob (cancelJob job) = cancelJob job := rfl

theorem typeMatches_cancelJob (type : JOBTYPE) (job : Job_t) :
    typeMatches type (cancelJob job) = typeMatches type job := rfl

theorem discard_loop_spec (type : JOBTYPE) (ids : List Int) (s : JobManager)
    (eff : List Effect) (hreg : Registered s ids) :
    ∃ s1, discardJobs.loop type ids s eff =
        some (s1, eff ++ (ids.filter (matchOf s type)).map Effect.cancel) ∧
      s1.m_jobsByClip = s.m_jobsByClip ∧
      ∀ k, s1.m_jobs.lookup k = (s.m_jobs.lookup k).map
        (fun job => if k ∈ ids ∧ typeMatches type job = true then cancelJob job else job) := by
  induction ids generalizing s eff with
  | nil =>
    refine ⟨s, by simp [discardJobs.loop], rfl, ?_⟩
    intro k
    cases s.m_jobs.lookup k <;> simp
  | cons j rest ih =>
    obtain ⟨job, hj⟩ := hreg j (List.mem_cons_self _ _)
    have hrest := registered_tail s j rest hreg
    have hm : matchOf s type j = typeMatches type job := by simp [matchOf, hj]
    simp only [discardJobs.loop, hj]
    by_cases h2 : (type == JOBTYPE.NOJOBTYPE || job.m_type == type) = true
    · have htm : typeMatches type job = true := h2
      rw [if_pos h2]
      have hlk : ∀ k, (s.setJob j (cancelJob job)).m_jobs.lookup k =
          if k = j then some (cancelJob job) else s.m_jobs.lookup k := by
        intro k
        rw [lookup_setJob]
        by_cases hk : k = j
        · subst hk; simp [hj]
        · simp [hk]
      have hreg1 : Registered (s.setJob j (cancelJob job)) rest := by
        intro k hk
        rw [hlk]
        by_cases hkj : k = j
        · exact ⟨cancelJob job, by simp [hkj]⟩
        · simpa [hkj] using hrest k hk
      have hmatch : matchOf (s.setJob j (cancelJob job)) type = matchOf s type := by
        funext k
        simp only [matchOf, hlk]
        by_cases hkj : k = j
        · subst hkj
          simp [hj, typeMatches_cancelJob]
        · simp [hkj]
      obtain ⟨s1, hrun, hclip, hlook⟩ :=
        ih (s.setJob j (cancelJob job)) (eff ++ [Effect.cancel j]) hreg1
      refine ⟨s1, ?_, ?_, ?_⟩
      · show discardJobs.loop type rest (s.setJob j (cancelJob job))
            (eff ++ [Effect.cancel j]) = _
        rw [hrun, hmatch, List.filter_cons_of_pos (by rw [hm]; exact htm)]
        simp
      · rw [hclip]; rfl
      · intro k
        rw [hlook, hlk]
        by_cases hkj : k = j
        · subst hkj
          simp only [if_true, Option.map_some', hj, List.mem_cons, true_or, true_and, htm,
            typeMatches_cancelJob]
          split <;> rfl
        · simp only [hkj, if_false, List.mem_cons, false_or]
    · rw [if_neg h2]
      have htm : ¬ typeMatches type job = true := h2
      obtain ⟨s1, hrun, hclip, hlook⟩ := ih s eff hrest
      refine ⟨s1, ?_, hclip, ?_⟩
      · rw [hrun, List.filter_cons_of_neg (by rw [hm]; exact htm)]
      · intro k
        rw [hlook]
        by_cases hkj : k = j
        · subst hkj
          simp [hj, htm]
        · simp [hkj]

/-- C6: `discardJobs` on an owner id absent from `m_jobsByClip` returns the registry
unchanged and calls nothing. On a known owner whose listed job ids are all registered it
returns; it calls `cancel` on a job if and only if the job is listed for that owner and
its type passes the filter (`NOJOBTYPE` passes every type), and calls nothing else; a
job so matched keeps every field but the handle, which is canceled; every other job, in
particular every job that is not listed for that owner, is left as it was; and the owner
index is unchanged. -/
theorem discardJobs_frame (s : JobManager) (binId : QString) (type : JOBTYPE) :
    (s.m_jobsByClip.lookup binId = none → discardJobs s binId type = some (s, [])) ∧
    (∀ ids, s.m_jobsByClip.lookup binId = some ids → Registered s ids →
      ∃ s1 e, discardJobs s binId type = some (s1, e) ∧
        (∀ j, Effect.cancel j ∈ e ↔
          (j ∈ ids ∧ ∃ job, s.m_jobs.lookup j = some job ∧
            (type = JOBTYPE.NOJOBTYPE ∨ job.m_type = type))) ∧
        (∀ x ∈ e, ∃ j, x = Effect.cancel j) ∧
        (∀ j job, s.m_jobs.lookup j = some job →
          (j ∈ ids ∧ (type = JOBTYPE.NOJOBTYPE ∨ job.m_type = type)) →
          s1.m_jobs.lookup j = some { job with m_future := job.m_future.cancel }) ∧
        (∀ j job, s.m_jobs.lookup j = some job →
          ¬ (j ∈ ids ∧ (type = JOBTYPE.NOJOBTYPE ∨ job.m_type = type)) →
          s1.m_jobs.lookup j = some job) ∧
        (∀ j, s.m_jobs.lookup j = none → s1.m_jobs.lookup j = none) ∧
        s1.m_jobsByClip = s.m_jobsByClip) := by
  constructor
  · intro h
    simp [discardJobs, h]
  · intro ids hown hreg
    obtain ⟨s1, hrun, hclip, hlook⟩ := discard_loop_spec type ids s [] hreg
    have htm : ∀ job : Job_t, typeMatches type job = true ↔
        (type = JOBTYPE.NOJOBTYPE ∨ job.m_type = type) := by
      intro job
      simp [typeMatches]
    refine ⟨s1, _, by simp only [discardJobs, hown]; exact hrun, ?_, ?_, ?_, ?_, ?_, hclip⟩
    · intro j
      simp only [List.nil_append, List.mem_map, List.mem_filter]
      constructor
      · rintro ⟨k, ⟨hk, hmk⟩, hkj⟩
        have : k = j := by simpa using hkj
        subst this
        obtain ⟨job, hj⟩ := hreg k hk
        refine ⟨hk, job, hj, ?_⟩
        simp only [matchOf, hj] at hmk
        exact (htm job).mp hmk
      · rintro ⟨hj, job, hlk, ht⟩
        refine ⟨j, ⟨hj, ?_⟩, rfl⟩
        simp only [matchOf, hlk]
        exact (htm job).mpr ht
    · intro x hx
      simp only [List.nil_append, List.mem_map] at hx
      obtain ⟨j, _, rfl⟩ := hx
      exact ⟨j, rfl⟩
    · intro j job hj ⟨hmem, ht⟩
      rw [hlook, hj]
      simp only [Option.map_some', hmem, (htm job).mpr ht, and_self, if_true]
      rfl
    · intro j job hj hn
      rw [hlook, hj]
      have : ¬ (j ∈ ids ∧ typeMatches type job = true) := by
        rw [htm]; exact hn
      simp only [Option.map_some', this, if_false]
    · intro j hj
      rw [hlook, hj]
      rfl

/-! ## The completion gate and `createJob` -/

theorem gateInv_setJob (s : JobManager) (id : Int) (job1 : Job_t) (hinv : GateInv s)
    (h : job1.m_completionMutex = false →
      job1.m_processed = true ∧
        (job1.m_future.isFinished = true ∨ job1.m_future.isCanceled = true)) :
    GateInv (s.setJob id job1) := by
  intro k j hmem hlock
  rcases mem_setJob s id job1 k j hmem with ⟨_, hold⟩ | ⟨_, hnew⟩
  · exact hinv k j hold hlock
  · subst hnew
    exact h hlock

theorem gateInv_finished (s : JobManager) (id : Int) (job : Job_t) (s1 : JobManager)
    (e : List Effect) (hinv : GateInv s) (hreg : s.m_jobs.lookup id = some job)
    (hsig : job.m_future.isFinished = true)
    (hrun : slotManageFinishedJob s id = some (s1, e)) : GateInv s1 := by
  by_cases hproc : job.m_processed = true
  · simp [slotManageFinishedJob, hreg, hproc] at hrun
    rw [← hrun.1]
    exact hinv
  · have hp : job.m_processed = false := by simpa using hproc
    simp only [slotManageFinishedJob, hreg, hp] at hrun
    by_cases hok : resultsOk true job.m_future.results = true
    · simp only [hok] at hrun
      simp only [Bool.not_true, Bool.false_eq_true, if_false, Option.some.injEq,
        Prod.mk.injEq] at hrun
      rw [← hrun.1]
      apply gateInv_setJob s id _ hinv
      intro _
      constructor
      · split <;> rfl
      · left
        split <;> exact hsig
    · have hok2 : resultsOk true job.m_future.results = false := by simpa using hok
      simp only [hok2] at hrun
      simp only [Bool.not_false, if_true, Bool.false_eq_true, if_false, Option.some.injEq,
        Prod.mk.injEq] at hrun
      rw [← hrun.1]
      apply gateInv_setJob s id _ hinv
      intro _
      exact ⟨rfl, Or.inl hsig⟩

theorem gateInv_canceled (s : JobManager) (id : Int) (job : Job_t) (s1 : JobManager)
    (e : List Effect) (hinv : GateInv s) (hreg : s.m_jobs.lookup id = some job)
    (hsig : job.m_future.isCanceled = true)
    (hrun : slotManageCanceledJob s id = some (s1, e)) : GateInv s1 := by
  by_cases hproc : job.m_processed = true
  · simp [slotManageCanceledJob, hreg, hproc] at hrun
    rw [← hrun.1]
    exact hinv
  · have hp : job.m_processed = false := by simpa using hproc
    simp only [slotManageCanceledJob, hreg, hp] at hrun
    simp only [Bool.false_eq_true, if_false, Option.some.injEq, Prod.mk.injEq] at hrun
    rw [← hrun.1]
    apply gateInv_setJob s id _ hinv
    intro _
    exact ⟨rfl, Or.inr hsig⟩

theorem gateInv_discard_loop (type : JOBTYPE) (ids : List Int) (s : JobManager)
    (eff : List Effect) (s1 : JobManager) (e : List Effect) (hinv : GateInv s)
    (hrun : discardJobs.loop type ids s eff = some (s1, e)) : GateInv s1 := by
  induction ids generalizing s eff with
  | nil =>
    simp only [discardJobs.loop, Option.some.injEq, Prod.mk.injEq] at hrun
    rw [← hrun.1]
    exact hinv
  | cons j rest ih =>
    cases hj : s.m_jobs.lookup j with
    | none => simp [discardJobs.loop, hj] at hrun
    | some job =>
      simp only [discardJobs.loop, hj] at hrun
      by_cases h2 : (type == JOBTYPE.NOJOBTYPE || job.m_type == type) = true
      · rw [if_pos h2] at hrun
        refine ih _ _ ?_ hrun
        apply gateInv_setJob s j _ hinv
        intro hlock
        have := hinv j job (lookup_mem _ _ _ hj) hlock
        exact ⟨this.1, Or.inr rfl⟩
      · rw [if_neg h2] at hrun
        exact ih _ _ hinv hrun

theorem gateInv_step (s s1 : JobManager) (hinv : GateInv s) (hstep : Step s s1) :
    GateInv s1 := by
  cases hstep with
  | finished id job _ e hreg hsig hrun => exact gateInv_finished s id job s1 e hinv hreg hsig hrun
  | canceled id job _ e hreg hsig hrun => exact gateInv_canceled s id job s1 e hinv hreg hsig hrun
  | discard binId type _ e hrun =>
    unfold discardJobs at hrun
    cases hown : s.m_jobsByClip.lookup binId with
    | none =>
      simp only [hown, Option.some.injEq, Prod.mk.injEq] at hrun
      rw [← hrun.1]
      exact hinv
    | some ids =>
      simp only [hown] at hrun
      exact gateInv_discard_loop type ids s [] s1 e hinv hrun
  | progress id job job1 i binId p e hreg hrun =>
    apply gateInv_setJob s id _ hinv
    intro hlock
    unfold jobProgress at hrun
    split at hrun
    · simp only [Option.some.injEq, Prod.mk.injEq] at hrun
      rw [← hrun.1] at hlock ⊢
      exact hinv id job (lookup_mem _ _ _ hreg) hlock
    · simp at hrun
  | handle id job f hreg hfin hcan =>
    apply gateInv_setJob s id _ hinv
    intro hlock
    have := hinv id job (lookup_mem _ _ _ hreg) hlock
    refine ⟨this.1, ?_⟩
    rcases this.2 with h | h
    · exact Or.inl (hfin h)
    · exact Or.inr (hcan h)
  | setFuture id job f hreg hproc =>
    apply gateInv_setJob s id _ hinv
    intro hlock
    have := hinv id job (lookup_mem _ _ _ hreg) hlock
    rw [hproc] at this
    simp at this
  | register job byClip hfresh hlock hproc =>
    intro k j hmem hl
    simp only [List.mem_append, List.mem_singleton, Prod.mk.injEq] at hmem
    rcases hmem with hold | ⟨_, hnew⟩
    · exact hinv k j hold hl
    · subst hnew
      rw [hlock] at hl
      simp at hl

theorem reachable_gateInv (s : JobManager) (h : Reachable s) : GateInv s := by
  induction h with
  | init =>
    intro k j hmem
    simp at hmem
  | step s s1 _ hstep ih => exact gateInv_step s s1 ih hstep

theorem sweepParents_true (s : JobManager) (parents : List Int)
    (h : sweepParents s parents = some true) :
    ∀ p ∈ parents, ∃ parent, s.m_jobs.lookup p = some parent ∧
      parent.m_completionMutex = false := by
  induction parents with
  | nil => intro p hp; simp at hp
  | cons q rest ih =>
    cases hq : s.m_jobs.lookup q with
    | none => simp [sweepParents, hq] at h
    | some parent =>
      simp only [sweepParents, hq] at h
      by_cases hlock : parent.m_completionMutex = true
      · simp [hlock] at h
      · have hl : parent.m_completionMutex = false := by simpa using hlock
        simp only [hl, Bool.false_eq_true, if_false] at h
        intro p hp
        rcases List.mem_cons.mp hp with hpq | hpr
        · subst hpq
          exact ⟨parent, hq, hl⟩
        · exact ih h p hpr

theorem waitForParents_admitted (env : Nat → JobManager) (parents : List Int)
    (fuel k0 k : Nat) (h : waitForParents env parents fuel k0 = Admission.admitted k) :
    sweepParents (env k) parents = some true ∧ k0 ≤ k ∧ k < k0 + fuel ∧
      ∀ n, k0 ≤ n → n < k → sweepParents (env n) parents = some false := by
  induction fuel generalizing k0 with
  | zero => simp [waitForParents] at h
  | succ fuel ih =>
    simp only [waitForParents] at h
    cases hs : sweepParents (env k0) parents with
    | none => simp [hs] at h
    | some b =>
      cases b with
      | true =>
        simp only [hs, Admission.admitted.injEq] at h
        subst h
        exact ⟨hs, le_refl _, by omega, fun n h1 h2 => by omega⟩
      | false =>
        simp only [hs] at h
        obtain ⟨h1, h2, h3, h4⟩ := ih (k0 + 1) h
        refine ⟨h1, by omega, by omega, ?_⟩
        intro n hn1 hn2
        by_cases hn : n = k0
        · subst hn; exact hs
        · exact h4 n (by omega) hn2

theorem waitForParents_waiting (env : Nat → JobManager) (parents : List Int)
    (fuel k0 : Nat)
    (h : ∀ n, k0 ≤ n → n < k0 + fuel → sweepParents (env n) parents = some false) :
    waitForParents env parents fuel k0 = Admission.waiting := by
  induction fuel generalizing k0 with
  | zero => rfl
  | succ fuel ih =>
    simp only [waitForParents, h k0 (le_refl _) (by omega)]
    exact ih (k0 + 1) (fun n h1 h2 => h n (by omega) (by omega))

theorem waitForParents_reaches (env : Nat → JobManager) (parents : List Int)
    (fuel k0 k : Nat) (hk0 : k0 ≤ k) (hk : k < k0 + fuel)
    (hbefore : ∀ n, k0 ≤ n → n < k → sweepParents (env n) parents = some false)
    (hat : sweepParents (env k) parents = some true) :
    waitForParents env parents fuel k0 = Admission.admitted k := by
  induction fuel generalizing k0 with
  | zero => omega
  | succ fuel ih =>
    by_cases hkk : k0 = k
    · subst hkk
      simp [waitForParents, hat]
    · simp only [waitForParents, hbefore k0 (le_refl _) (by omega)]
      exact ih (k0 + 1) (by omega) (by omega) (fun n h1 h2 => hbefore n (by omega) h2)

theorem createJob_some (env : Nat → JobManager) (fuel : Nat) (id : Int) (parents : List Int)
    (fut : Future) (k : Nat) (s1 : JobManager) (e : List Effect)
    (h : createJob env fuel id parents fut = some (k, s1, e)) :
    waitForParents env parents fuel 0 = Admission.admitted k ∧
      ∃ rest, e = Effect.mapped id :: rest := by
  unfold createJob at h
  cases hw : waitForParents env parents fuel 0 with
  | waiting => simp [hw] at h
  | failed => simp [hw] at h
  | admitted k1 =>
    simp only [hw] at h
    cases hj : (env k1).m_jobs.lookup id with
    | none => simp [hj] at h
    | some job =>
      simp only [hj] at h
      split at h
      · simp at h
      · split at h
        · simp at h
        · simp only [Option.some.injEq, Prod.mk.injEq] at h
          obtain ⟨hk, _, he⟩ := h
          subst hk
          exact ⟨rfl, _, by rw [← he]; rfl⟩

theorem createJob_returns (env : Nat → JobManager) (fuel : Nat) (id : Int)
    (parents : List Int) (fut : Future) (k : Nat) (job : Job_t)
    (hw : waitForParents env parents fuel 0 = Admission.admitted k)
    (hj : (env k).m_jobs.lookup id = some job) :
    ∃ s1 e, createJob env fuel id parents fut = some (k, s1, e) := by
  simp only [createJob, hw, hj]
  have hreg1 := lookup_setJob_self (env k) id job { job with m_future := fut } hj
  obtain ⟨s2, e2, h2, j2, hreg2⟩ : ∃ s2 e2,
      (if fut.isFinished = true then
          emitFinished ((env k).setJob id { job with m_future := fut }) id
        else some ((env k).setJob id { job with m_future := fut }, [])) = some (s2, e2) ∧
      ∃ j2, s2.m_jobs.lookup id = some j2 := by
    by_cases hf : fut.isFinished = true
    · obtain ⟨s2, e2, j2, hr, hl, _⟩ := runTerminal_marks _ id _ hreg1 Terminal.finished
      simp only [runTerminal] at hr
      exact ⟨s2, e2 ++ [updateJobCount s2], by simp [hf, emitFinished, hr], j2, hl⟩
    · exact ⟨(env k).setJob id { job with m_future := fut }, [], by simp [hf], _, hreg1⟩
  obtain ⟨s3, e3, h3⟩ : ∃ s3 e3,
      (if fut.isCanceled = true then emitCanceled s2 id else some (s2, [])) = some (s3, e3) := by
    by_cases hc : fut.isCanceled = true
    · obtain ⟨s3, e3, j3, hr, _, _⟩ := runTerminal_marks s2 id j2 hreg2 Terminal.canceled
      simp only [runTerminal] at hr
      exact ⟨s3, e3 ++ [updateJobCount s3], by simp [hc, emitCanceled, hr]⟩
    · exact ⟨s2, [], by simp [hc]⟩
  rw [h2]
  simp only
  rw [h3]
  exact ⟨_, _, rfl⟩

/-- C3: let the registry read by each sweep of a waiting `createJob` be reachable by the
program (gates held at registration, released by the terminal handlers only). Whenever
`createJob` dispatches the subtasks, the dispatch `QtConcurrent::mapped` is its first
call, it follows a full sweep in which every parent's completion mutex was found free,
every earlier sweep had met a held mutex, and every parent is then registered,
processed by a terminal handler, and has a handle that is finished or canceled, so that
`getJobStatus` reads Finished or Canceled for it. As long
as every sweep meets a held mutex nothing is dispatched. And when a sweep finds every
gate free and the job is registered, `createJob` does return, at that sweep. -/
theorem createJob_waits_for_parents (env : Nat → JobManager) (fuel : Nat) (id : Int)
    (parents : List Int) (fut : Future) (hreach : ∀ n, Reachable (env n)) :
    (∀ k s1 e, createJob env fuel id parents fut = some (k, s1, e) →
      e.head? = some (Effect.mapped id) ∧
      sweepParents (env k) parents = some true ∧
      (∀ n, n < k → sweepParents (env n) parents = some false) ∧
      (∀ p ∈ parents, ∃ parent, (env k).m_jobs.lookup p = some parent ∧
        parent.m_completionMutex = false ∧ parent.m_processed = true ∧
        (parent.m_future.isFinished = true ∨ parent.m_future.isCanceled = true) ∧
        (getJobStatus (env k) p = some JobManagerStatus.Finished ∨
          getJobStatus (env k) p = some JobManagerStatus.Canceled))) ∧
    ((∀ n, n < fuel → sweepParents (env n) parents = some false) →
      createJob env fuel id parents fut = none) ∧
    (∀ k job, k < fuel → (∀ n, n < k → sweepParents (env n) parents = some false) →
      sweepParents (env k) parents = some true → (env k).m_jobs.lookup id = some job →
      ∃ s1 e, createJob env fuel id parents fut = some (k, s1, e)) := by
  refine ⟨?_, ?_, ?_⟩
  · intro k s1 e hrun
    obtain ⟨hw, rest, he⟩ := createJob_some env fuel id parents fut k s1 e hrun
    obtain ⟨hsweep, _, _, hbefore⟩ := waitForParents_admitted env parents fuel 0 k hw
    refine ⟨by rw [he]; rfl, hsweep, fun n hn => hbefore n (Nat.zero_le _) hn, ?_⟩
    intro p hp
    obtain ⟨parent, hlk, hfree⟩ := sweepParents_true (env k) parents hsweep p hp
    have hinv := reachable_gateInv (env k) (hreach k) p parent (lookup_mem _ _ _ hlk) hfree
    refine ⟨parent, hlk, hfree, hinv.1, hinv.2, ?_⟩
    simp only [getJobStatus, hlk]
    by_cases hf : parent.m_future.isFinished = true
    · left; simp [hf]
    · right
      have hc : parent.m_future.isCanceled = true := hinv.2.resolve_left hf
      simp [hf, hc]
  · intro hall
    have hw := waitForParents_waiting env parents fuel 0
      (fun n _ h2 => hall n (by omega))
    simp [createJob, hw]
  · intro k job hk hbefore hat hj
    have hw := waitForParents_reaches env parents fuel 0 k (Nat.zero_le _) (by omega)
      (fun n _ h2 => hbefore n h2) hat
    exact createJob_returns env fuel id parents fut k job hw hj

/-! ## A run of `createJob`: a parent job and its dependent -/

theorem childRegistered_reachable : Reachable childRegistered := by
  have h1 : Reachable parentRegistered :=
    Reachable.step _ _ Reachable.init
      (Step.register { m_jobs := [], m_jobsByClip := [] }
        (jobOf 1 goodClipJob (handleOf false false [])) [("clipA", [1])] rfl rfl rfl)
  exact Reachable.step _ _ h1
    (Step.register parentRegistered (jobOf 2 goodClipJob (handleOf false false []))
      [("clipA", [1, 2])] (by decide) rfl rfl)

theorem parentProcessed_reachable : Reachable parentProcessed := by
  have h2 : Reachable parentDone :=
    Reachable.step _ _ childRegistered_reachable
      (Step.handle childRegistered 1 (jobOf 1 goodClipJob (handleOf false false []))
        (handleOf true false [true]) (by decide) (by decide) (by decide))
  exact Reachable.step _ _ h2
    (Step.finished parentDone 1 (jobOf 1 goodClipJob (handleOf true false [true]))
      parentProcessed
      [Effect.onItemUpdated "clipA", Effect.commitResult 1 0, Effect.pushUndo "Transcode",
        Effect.unlock 1, Effect.jobCount 0]
      (by decide) (by decide) (by decide))

theorem sampleEnv_reachable (n : Nat) : Reachable (sampleEnv n) := by
  unfold sampleEnv
  split
  · exact childRegistered_reachable
  · exact parentProcessed_reachable

/-- C3, at a concrete input: the dependent job 2 waits for the parent job 1; the first
sweep meets the held gate, the second finds it free, and the dispatch happens then. -/
theorem createJob_waits_for_parents_witness :
    (∀ n, Reachable (sampleEnv n)) ∧
    createJob sampleEnv 5 2 [1] (handleOf false false []) =
      some (1, parentProcessed, [Effect.mapped 2]) ∧
    sweepParents (sampleEnv 0) [1] = some false ∧
    sweepParents (sampleEnv 1) [1] = some true ∧
    (∀ p ∈ [(1 : Int)], ∃ parent, (sampleEnv 1).m_jobs.lookup p = some parent ∧
        parent.m_completionMutex = false ∧ parent.m_processed = true ∧
        (parent.m_future.isFinished = true ∨ parent.m_future.isCanceled = true) ∧
        (getJobStatus (sampleEnv 1) p = some JobManagerStatus.Finished ∨
          getJobStatus (sampleEnv 1) p = some JobManagerStatus.Canceled)) :=
  ⟨sampleEnv_reachable, by decide, by decide, by decide,
    ((createJob_waits_for_parents sampleEnv 5 2 [1] (handleOf false false [])
      sampleEnv_reachable).1 1 parentProcessed [Effect.mapped 2] (by decide)).2.2.2⟩

/-! ## Queries and `discardJobs` on a registry with two owners -/

theorem sampleRegistry_registered : Registered sampleRegistry [1, 2, 3] := by
  intro j hj
  simp only [List.mem_cons, List.mem_singleton, List.not_mem_nil, or_false] at hj
  rcases hj with rfl | rfl | rfl
  · exact ⟨_, rfl⟩
  · exact ⟨_, rfl⟩
  · exact ⟨_, rfl⟩

/-- C5, at a concrete input: the jobs of `clipA`, any type. -/
theorem pending_finished_partition_witness :
    Registered sampleRegistry [1, 2, 3] ∧
    getPendingJobsIds sampleRegistry "clipA" JOBTYPE.NOJOBTYPE = some [1, 3] ∧
    getFinishedJobsIds sampleRegistry "clipA" JOBTYPE.NOJOBTYPE = some [2] ∧
    ∃ p f, getPendingJobsIds sampleRegistry "clipA" JOBTYPE.NOJOBTYPE = some p ∧
      getFinishedJobsIds sampleRegistry "clipA" JOBTYPE.NOJOBTYPE = some f ∧
      (∀ j, ¬ (j ∈ p ∧ j ∈ f)) :=
  ⟨sampleRegistry_registered, by decide, by decide,
    match pending_finished_partition sampleRegistry "clipA" JOBTYPE.NOJOBTYPE [1, 2, 3]
        (by decide) sampleRegistry_registered with
    | ⟨p, f, h1, h2, h3, _⟩ => ⟨p, f, h1, h2, h3⟩⟩

/-- C10, at a concrete input: the jobs of `clipA` of the type of job 3. -/
theorem hasPendingJob_refines_witness :
    Registered sampleRegistry [1, 2, 3] ∧
    getPendingJobsIds sampleRegistry "clipA" (JOBTYPE.kind 5) = some [3] ∧
    hasPendingJob sampleRegistry "clipA" (JOBTYPE.kind 5) = some (true, 3) ∧
    hasPendingJob sampleRegistry "clipA" (JOBTYPE.kind 9) = some (false, -1) ∧
    ∃ p r, getPendingJobsIds sampleRegistry "clipA" (JOBTYPE.kind 5) = some p ∧
      hasPendingJob sampleRegistry "clipA" (JOBTYPE.kind 5) = some r ∧
      (r.1 = true ↔ p ≠ []) ∧ (r.1 = true → p.head? = some r.2) ∧
      (r.1 = false → r.2 = -1) :=
  ⟨sampleRegistry_registered, by decide, by decide, by decide,
    hasPendingJob_refines sampleRegistry "clipA" (JOBTYPE.kind 5) [1, 2, 3]
      (by decide) sampleRegistry_registered⟩

/-- C6, at a concrete input: an unknown owner, and the jobs of `clipA` of the type of
jobs 1 and 2. -/
theorem discardJobs_frame_witness :
    discardJobs sampleRegistry "clipZ" JOBTYPE.NOJOBTYPE = some (sampleRegistry, []) ∧
    (discardJobs sampleRegistry "clipA" (JOBTYPE.kind 4)).map Prod.snd =
      some [Effect.cancel 1, Effect.cancel 2] ∧
    ∃ s1 e, discardJobs sampleRegistry "clipA" (JOBTYPE.kind 4) = some (s1, e) ∧
      (∀ x ∈ e, ∃ j, x = Effect.cancel j) ∧
      s1.m_jobsByClip = sampleRegistry.m_jobsByClip :=
  ⟨(discardJobs_frame sampleRegistry "clipZ" JOBTYPE.NOJOBTYPE).1 (by decide), by decide,
    match (discardJobs_frame sampleRegistry "clipA" (JOBTYPE.kind 4)).2 [1, 2, 3]
        (by decide) sampleRegistry_registered with
    | ⟨s1, e, h1, _, h3, _, _, _, h7⟩ => ⟨s1, e, h1, h3, h7⟩⟩

end JobManager
